import Mathlib

/-!
# Verification of the product-catalog search application

A shallow embedding of the core of `src/main.py` (class `ProductApp`):
search-index construction (`_build_search_index`, `_add_prefix_index`),
indexed search with linear-scan fallback (`_search_with_index`), the
search UI state machine (`_perform_search`, `_render_table`,
`_render_pagination`, `_change_page`), and CSV import
(`_process_csv_content`).

Python strings are modelled as `List Char`; `str.lower` / `str.upper`
as character-wise `Char.toLower` / `Char.toUpper`; `str.split()` as
splitting on whitespace, discarding empty pieces; `str.strip()` as
trimming whitespace at both ends; the `in` substring test as the
contiguous-sublist relation `<:+:`.  Python dicts keyed by strings are
modelled as association lists with unique keys in insertion order.
-/

/-- Python strings, modelled as lists of characters. -/
abbrev Str := List Char

/-- `str.lower()`, character-wise. -/
def lower (s : Str) : Str := s.map Char.toLower

/-- `str.upper()`, character-wise. -/
def upperStr (s : Str) : Str := s.map Char.toUpper

/-- `str.strip()`: drop whitespace from both ends. -/
def stripStr (s : Str) : Str :=
  ((s.dropWhile Char.isWhitespace).reverse.dropWhile Char.isWhitespace).reverse

/-- Helper for `wsplit`: walk the characters, accumulating the current
word in reverse; flush it at whitespace and at the end. -/
def wsplitAux : List Char → List Char → List (List Char)
  | [], acc => if acc = [] then [] else [acc.reverse]
  | c :: cs, acc =>
    if c.isWhitespace then
      if acc = [] then wsplitAux cs [] else acc.reverse :: wsplitAux cs []
    else wsplitAux cs (c :: acc)

/-- `str.split()` with no separator argument: split on runs of
whitespace, discarding empty pieces. -/
def wsplit (s : List Char) : List (List Char) := wsplitAux s []

/-- A record of the catalog: the `ProductItem` dataclass / the dicts held
in `self.all_data` (`src/main.py` lines 52-81, 598-605). -/
structure Item where
  id : Nat
  code : Str
  categoryName : Str
  name : Str
  spec : Str
  udi : Str
deriving DecidableEq, Repr

/-- The seed catalog `DEFAULT_DATA` (`src/main.py` lines 87-92). -/
def defaultData : List Item :=
  [⟨1, "0137NE".data, "Syringes".data, "Perouse Perouse Syringes 150ml".data, [], []⟩,
   ⟨2, "0163NA".data, "High Pressure Tubing".data, "Perouse HighPressure Line 50cm".data, "1.8mm".data, []⟩,
   ⟨3, "0163ND".data, "High Pressure Tubing".data, "Perouse HighPressure Line120cm".data, [], []⟩,
   ⟨4, "0185NA".data, "Inflation Device".data, "Perouse Inflation Device 30atm".data, [], []⟩]

/-- `f"{item['code']} {item['name']} {item['spec']}".lower()`
(`src/main.py` line 170). -/
def searchableText (r : Item) : Str :=
  lower (r.code ++ ' ' :: (r.name ++ ' ' :: r.spec))

/-- `searchable_text.split()` (`src/main.py` line 173): the word tokens
of a record. -/
def wordTokens (r : Item) : List Str := wsplit (searchableText r)

/-- The literal namespace tag `"_prefix_"` used for prefix-bucket keys
(`src/main.py` lines 191, 205). -/
def prefTag : Str := "_prefix_".data

/-- The search index `self.search_index`: a string-keyed dict mapping
terms to lists of records, modelled as an association list in insertion
order with unique keys. -/
abbrev Index := List (Str × List Item)

/-- Dict lookup: value of the first (unique) entry with the given key. -/
def lookupIdx : Index → Str → Option (List Item)
  | [], _ => none
  | e :: rest, k => if e.1 = k then some e.2 else lookupIdx rest k

/-- `if item not in bucket: bucket.append(item)` (`src/main.py`
lines 176-177, 194-195). -/
def addUnique (l : List Item) (it : Item) : List Item :=
  if it ∈ l then l else l ++ [it]

/-- Ensure the key has a bucket and append the item to it if absent
(`src/main.py` lines 174-177 and 192-195): update the entry with this
key, or append a fresh entry at the end of the dict. -/
def addItemToKey : Index → Str → Item → Index
  | [], k, it => [(k, [it])]
  | e :: rest, k, it =>
    if e.1 = k then (e.1, addUnique e.2 it) :: rest
    else e :: addItemToKey rest k it

/-- The word-token indexing loop for one item (`src/main.py`
lines 173-177). -/
def indexWordsOf (idx : Index) (it : Item) : Index :=
  (wordTokens it).foldl (fun a w => addItemToKey a w it) idx

/-- The prefixes taken of one lowercased field value:
`value[:i]` for `i in range(1, min(len(value) + 1, 10))`
(`src/main.py` lines 189-190). -/
def prefsOf (v : Str) : List Str :=
  (List.range' 1 (min v.length 9)).map (fun i => v.take i)

/-- The inner loop of `_add_prefix_index` for one field value
(`src/main.py` lines 188-195). -/
def addPrefField (idx : Index) (it : Item) (v : Str) : Index :=
  (prefsOf (lower v)).foldl (fun a p => addItemToKey a (prefTag ++ p) it) idx

/-- `_add_prefix_index` (`src/main.py` lines 184-195): prefix-index the
three fields `code`, `name`, `spec` of one item. -/
def addPrefIdx (idx : Index) (it : Item) : Index :=
  addPrefField (addPrefField (addPrefField idx it it.code) it it.name) it it.spec

/-- `_build_search_index` (`src/main.py` lines 165-182): fold over the
catalog, word-indexing then prefix-indexing each item. -/
def buildSearchIndex (data : List Item) : Index :=
  data.foldl (fun a it => addPrefIdx (indexWordsOf a it) it) []

/-- The linear-scan fallback (`src/main.py` lines 214-219):
case-insensitive substring containment against `code`, `name`, `spec`,
with OR semantics, preserving catalog order. -/
def linearScan (data : List Item) (t : Str) : List Item :=
  data.filter (fun r =>
    decide (t <:+: lower r.code) || decide (t <:+: lower r.name) ||
      decide (t <:+: lower r.spec))

/-- `_search_with_index` (`src/main.py` lines 197-219): normalize the
term, try the prefix-tagged bucket, then the whole-word bucket, then
fall back to the linear scan. -/
def searchWithIndex (idx : Index) (data : List Item) (term : Str) : List Item :=
  let t := stripStr (lower term)
  if t = [] then []
  else
    match lookupIdx idx (prefTag ++ t) with
    | some l => l
    | none =>
      match lookupIdx idx t with
      | some l => l
      | none => linearScan data t

/-- `ITEMS_PER_PAGE` (`src/main.py` line 30). -/
def ITEMS_PER_PAGE : Nat := 20

/-- The slice shown on page `n` (1-based):
`filtered_data[(n-1)*ITEMS_PER_PAGE : n*ITEMS_PER_PAGE]`
(`src/main.py` lines 510-512). -/
def pageSlice (rs : List Item) (n : Nat) : List Item :=
  (rs.drop ((n - 1) * ITEMS_PER_PAGE)).take ITEMS_PER_PAGE

/-- `math.ceil(len(filtered_data) / ITEMS_PER_PAGE)` (`src/main.py`
lines 536, 559), as exact natural ceiling division. -/
def pageCount (rs : List Item) : Nat :=
  (rs.length + (ITEMS_PER_PAGE - 1)) / ITEMS_PER_PAGE

/-- `_change_page` (`src/main.py` lines 557-564), with the computed
`total_pages` as a parameter: move to `current + delta` only when the
result stays within `[1, total_pages]`. -/
def changePage (current : Nat) (delta : Int) (total_pages : Nat) : Nat :=
  if 1 ≤ (current : Int) + delta ∧ (current : Int) + delta ≤ (total_pages : Int)
  then ((current : Int) + delta).toNat else current

/-- Status message `"請輸入搜尋條件"` shown for an empty query
(`src/main.py` lines 304, 485). -/
def promptMsg : String := "請輸入搜尋條件"

/-- Status message `"查無資料"` shown for a query with zero matches
(`src/main.py` line 494). -/
def noDataMsg : String := "查無資料"

/-- The mutable fields of `ProductApp` touched by search, rendering
and import (UI widget trees themselves are not modelled; `table_rows`
stands for the records rendered into `self.data_table.rows`). -/
structure AppState where
  all_data : List Item
  filtered_data : List Item
  search_index : Index
  current_page : Nat
  search_term : Str
  status_value : String
  status_visible : Bool
  table_visible : Bool
  pagination_visible : Bool
  table_rows : List Item
deriving DecidableEq, Repr

/-- `_render_pagination` (`src/main.py` lines 534-555): hide the
controls when there are at most one page, show them otherwise. -/
def renderPagination (st : AppState) : AppState :=
  if pageCount st.filtered_data ≤ 1 then { st with pagination_visible := false }
  else { st with pagination_visible := true }

/-- `_render_table` (`src/main.py` lines 503-532): empty result set
renders no rows; otherwise the current page's slice is rendered; both
paths end in `_render_pagination`. -/
def renderTable (st : AppState) : AppState :=
  if st.filtered_data = [] then renderPagination { st with table_rows := [] }
  else renderPagination
    { st with table_rows := pageSlice st.filtered_data st.current_page }

/-- `_perform_search` (`src/main.py` lines 479-498). -/
def performSearchS (st : AppState) : AppState :=
  let t := stripStr (lower st.search_term)
  if t = [] then
    renderTable { st with
      filtered_data := [], status_value := promptMsg, status_visible := true,
      table_visible := false, pagination_visible := false }
  else
    let fd := searchWithIndex st.search_index st.all_data t
    renderTable { st with
      filtered_data := fd, current_page := 1,
      status_visible := fd.isEmpty,
      status_value := if fd.isEmpty then noDataMsg else "",
      table_visible := true, pagination_visible := true }

/-- `_search_with_index` as a state transition: the method only reads
`self.search_index` and `self.all_data` and assigns no attribute, so the
state component is returned untouched. -/
def searchWithIndexS (st : AppState) (term : Str) : AppState × List Item :=
  (st, searchWithIndex st.search_index st.all_data term)

/-- Split a string at every occurrence of `sep` (the pieces between
separators, in order; empty pieces kept). -/
def splitOnChar (sep : Char) : Str → List Str
  | [] => [[]]
  | c :: cs =>
    if c = sep then [] :: splitOnChar sep cs
    else
      match splitOnChar sep cs with
      | [] => [[c]]
      | x :: xs => (c :: x) :: xs

/-- `str.splitlines()`: split at newlines; a trailing newline produces
no trailing empty line. -/
def splitLines (s : Str) : List Str :=
  let ps := splitOnChar '\n' s
  if ps.getLast? = some [] then ps.dropLast else ps

/-- One line through `csv.reader`, for quote-free input: an empty line
yields the empty row, otherwise split at commas.  (The `csv` module's
quoting rules are external library behaviour and are not modelled.) -/
def csvRow (l : Str) : List Str :=
  if l = [] then [] else splitOnChar ',' l

/-- The body of the import loop for one row with its `enumerate` index
(`src/main.py` lines 589-605): skip rows with fewer than 5 fields, trim
the code, drop codes starting (case-insensitively) with `"ZZ"` or with
`"待"`, and otherwise build the record with `id` equal to the
`enumerate` counter. -/
def rowToItem (i : Nat) (row : List Str) : Option Item :=
  if row.length < 5 then none
  else
    let code := stripStr (row.getD 0 [])
    if ("ZZ".data <+: upperStr code) ∨ (['待'] <+: code) then none
    else some ⟨i, code, stripStr (row.getD 2 []), stripStr (row.getD 3 []),
      stripStr (row.getD 4 []), []⟩

/-- The import loop `for idx, row in enumerate(reader, 1)`
(`src/main.py` lines 589-605), starting from counter `i`: the counter
advances on every row, surviving or not. -/
def parseRowsFrom : Nat → List (List Str) → List Item
  | _, [] => []
  | i, row :: rest =>
    match rowToItem i row with
    | some it => it :: parseRowsFrom (i + 1) rest
    | none => parseRowsFrom (i + 1) rest

/-- The full parsing pipeline of `_process_csv_content` on raw pasted
text, for quote-free input: split lines, read rows, skip the header,
run the filtering loop with the counter starting at 1. -/
def processCsvText (text : Str) : List Item :=
  parseRowsFrom 1 (((splitLines text).map csvRow).tail)

/-- Outcome of one `_process_csv_content` call: the resulting state, the
payload passed to `client_storage.set` if persistence was triggered, and
whether a success message was shown. -/
structure ImportResult where
  state : AppState
  saved : Option (List Item)
  success : Bool
deriving DecidableEq, Repr

/-- `_process_csv_content` (`src/main.py` lines 580-619) as a state
transition.  The rows argument is the outcome of draining `csv.reader`:
`Except.error` models a `csv.Error` raised while iterating (caught by
the surrounding `try`, which then only reports); `Except.ok rs` is the
full row list, whose head is the header skipped by `next(reader, None)`.
Zero surviving rows only reports a failure; otherwise the catalog is
replaced, persistence is triggered with the new records, and the index
is rebuilt from them. -/
def processCsv (st : AppState) (rows : Except String (List (List Str))) : ImportResult :=
  match rows with
  | .error _ => ⟨st, none, false⟩
  | .ok rs =>
    let parsed := parseRowsFrom 1 rs.tail
    if parsed.isEmpty then ⟨st, none, false⟩
    else ⟨{ st with all_data := parsed, search_index := buildSearchIndex parsed },
      some parsed, true⟩

/-- The prefix-match property a record must satisfy to be prefix-indexed
under `p`: `p` is a prefix of its lowercased `code`, `name` or `spec`. -/
def fieldPref (p : Str) (r : Item) : Prop :=
  p <+: lower r.code ∨ p <+: lower r.name ∨ p <+: lower r.spec

instance (p : Str) (r : Item) : Decidable (fieldPref p r) := by
  unfold fieldPref; exact inferInstance

/-- Membership of a record in the bucket of a key. -/
def memBucket (idx : Index) (k : Str) (r : Item) : Prop :=
  ∃ l, lookupIdx idx k = some l ∧ r ∈ l

/-- The ways a record can legitimately sit in the bucket of key `k`:
`k` is one of its word tokens, or `k` is the tagged form of a short
nonempty prefix of one of its fields. -/
def goodKey (k : Str) (r : Item) : Prop :=
  k ∈ wordTokens r ∨
    ∃ p, p ≠ [] ∧ p.length ≤ 9 ∧ k = prefTag ++ p ∧ fieldPref p r

/-! ## Pagination and page navigation -/

/-- C8: `changePage` moves to `current + delta` exactly when that value
lies within `[1, total_pages]`, and otherwise leaves the page unchanged;
in particular both boundary navigations are no-ops. -/
theorem changePage_spec (c : Nat) (d : Int) (N : Nat) :
    ((1 ≤ (c : Int) + d ∧ (c : Int) + d ≤ (N : Int)) →
      (changePage c d N : Int) = (c : Int) + d) ∧
    (¬(1 ≤ (c : Int) + d ∧ (c : Int) + d ≤ (N : Int)) → changePage c d N = c) ∧
    changePage 1 (-1) N = 1 ∧ changePage N 1 N = N := by
  unfold changePage
  refine ⟨fun h => ?_, fun h => ?_, ?_, ?_⟩
  · rw [if_pos h]
    exact Int.toNat_of_nonneg (by omega)
  · rw [if_neg h]
  · rw [if_neg]
    intro h
    omega
  · rw [if_neg]
    intro h
    omega

/-- Witness for `changePage_spec` at a concrete in-range move. -/
theorem changePage_spec_witness : changePage 2 1 5 = 3 := by
  have h := (changePage_spec 2 1 5).1 (by omega)
  omega

theorem pages_flatten_aux : ∀ (k : Nat) (rs : List Item), rs.length ≤ 20 * k →
    ((List.range k).map (fun i => (rs.drop (20 * i)).take 20)).flatten = rs := by
  intro k
  induction k with
  | zero =>
    intro rs h
    have hrs : rs = [] := List.eq_nil_of_length_eq_zero (by omega)
    simp [hrs]
  | succ k ih =>
    intro rs h
    rw [List.range_succ_eq_map]
    simp only [List.map_cons, List.map_map, List.flatten_cons]
    have heq : ((fun i => (rs.drop (20 * i)).take 20) ∘ Nat.succ) =
        (fun i => (((rs.drop 20).drop (20 * i)).take 20)) := by
      funext i
      simp only [Function.comp_apply, List.drop_drop]
      congr 2
      omega
    rw [heq, ih (rs.drop 20) (by simp; omega)]
    simp

/-- C4: concatenating `page(rs, 1)` through `page(rs, pageCount rs)`
reproduces the result set exactly, in order. -/
theorem pagination_rebuilds (rs : List Item) :
    ((List.range' 1 (pageCount rs)).map (pageSlice rs)).flatten = rs := by
  rw [List.range'_eq_map_range, List.map_map]
  have heq : (pageSlice rs ∘ (1 + ·)) = (fun i => (rs.drop (20 * i)).take 20) := by
    funext i
    simp only [Function.comp_apply, pageSlice, ITEMS_PER_PAGE]
    congr 2
    omega
  rw [heq]
  refine pages_flatten_aux (pageCount rs) rs ?_
  unfold pageCount ITEMS_PER_PAGE
  omega

/-! ## Search dispatch, read-only search, empty query -/

/-- C6: the search consults the prefix-tagged bucket first, then (only
if that key is absent) the whole-word bucket, and when both index paths
miss it always performs the full linear scan. -/
theorem search_dispatch (idx : Index) (data : List Item) (term : Str)
    (h : stripStr (lower term) ≠ []) :
    (∀ l, lookupIdx idx (prefTag ++ stripStr (lower term)) = some l →
      searchWithIndex idx data term = l) ∧
    (lookupIdx idx (prefTag ++ stripStr (lower term)) = none →
      ∀ l, lookupIdx idx (stripStr (lower term)) = some l →
        searchWithIndex idx data term = l) ∧
    (lookupIdx idx (prefTag ++ stripStr (lower term)) = none →
      lookupIdx idx (stripStr (lower term)) = none →
      searchWithIndex idx data term = linearScan data (stripStr (lower term))) := by
  refine ⟨fun l hl => ?_, fun h1 l hl => ?_, fun h1 h2 => ?_⟩ <;>
    simp [searchWithIndex, h, *]

/-- Witness for `search_dispatch`: on an empty index both lookups miss
and the fallback scan is returned. -/
theorem search_dispatch_witness :
    searchWithIndex [] [] ("q".data) = linearScan [] (stripStr (lower ("q".data))) :=
  (search_dispatch [] [] ("q".data) (by decide)).2.2 rfl rfl

/-- C10: `_search_with_index` is read-only — it returns the state
unchanged (in particular `all_data` and `search_index`), producing only
the match list. -/
theorem search_is_readonly (st : AppState) (term : Str) :
    (searchWithIndexS st term).1.all_data = st.all_data ∧
    (searchWithIndexS st term).1.search_index = st.search_index ∧
    (searchWithIndexS st term).2 = searchWithIndex st.search_index st.all_data term :=
  ⟨rfl, rfl, rfl⟩

/-- C7: a raw search input whose normalized form is empty yields the
"no query" state — prompt status shown, empty result list, table and
pagination hidden — and the prompt message differs from the
zero-results message.  The catalog is arbitrary (in particular it may
be non-empty). -/
theorem empty_query_prompt (st : AppState) (h : stripStr (lower st.search_term) = []) :
    performSearchS st = { st with
      filtered_data := [], status_value := promptMsg,
      status_visible := true, table_visible := false, pagination_visible := false,
      table_rows := [] } ∧ promptMsg ≠ noDataMsg := by
  constructor
  · simp [performSearchS, renderTable, renderPagination, pageCount, ITEMS_PER_PAGE, h]
  · decide

/-- A concrete state with the non-empty default catalog and an
all-whitespace search term. -/
def stEmptyQuery : AppState :=
  ⟨defaultData, [], [], 1, "  ".data, "", true, true, true, []⟩

/-- Witness for `empty_query_prompt` on a non-empty catalog. -/
theorem empty_query_prompt_witness :
    performSearchS stEmptyQuery = { stEmptyQuery with
      filtered_data := [], status_value := promptMsg,
      status_visible := true, table_visible := false,
      pagination_visible := false, table_rows := [] } ∧ promptMsg ≠ noDataMsg :=
  empty_query_prompt stEmptyQuery (by decide)

/-! ## CSV import -/

/-- C3: a parse error or zero surviving rows leaves the state (catalog
and index included) completely unchanged, triggers no persistence and
reports failure; on success the catalog is replaced by the parsed rows,
persistence is triggered with exactly them, and the index is rebuilt
from them. -/
theorem csv_import_atomic (st : AppState) (rows : Except String (List (List Str))) :
    (∀ e, rows = .error e → processCsv st rows = ⟨st, none, false⟩) ∧
    (∀ rs, rows = .ok rs → parseRowsFrom 1 rs.tail = [] →
      processCsv st rows = ⟨st, none, false⟩) ∧
    (∀ rs, rows = .ok rs → parseRowsFrom 1 rs.tail ≠ [] →
      (processCsv st rows).state.all_data = parseRowsFrom 1 rs.tail ∧
      (processCsv st rows).state.search_index =
        buildSearchIndex (parseRowsFrom 1 rs.tail) ∧
      (processCsv st rows).saved = some (parseRowsFrom 1 rs.tail) ∧
      (processCsv st rows).success = true) := by
  refine ⟨?_, ?_, ?_⟩
  · rintro e rfl
    rfl
  · rintro rs rfl hp
    simp [processCsv, hp]
  · rintro rs rfl hp
    simp [processCsv, List.isEmpty_iff, hp]

/-- A concrete state used by witnesses. -/
def stW0 : AppState := ⟨defaultData, [], [], 1, [], "", true, true, true, []⟩

/-- Witness for `csv_import_atomic`: a parse error is a strict no-op. -/
theorem csv_import_atomic_witness :
    processCsv stW0 (.error "bad") = ⟨stW0, none, false⟩ :=
  (csv_import_atomic stW0 (.error "bad")).1 "bad" rfl

/-! ## Tokenization lemmas -/

theorem pref_inf {a b : Str} (h : a <+: b) : a <:+: b := by
  obtain ⟨t, ht⟩ := h
  exact ⟨[], t, by simpa using ht⟩

theorem suff_inf {a b : Str} (h : a <:+ b) : a <:+: b := by
  obtain ⟨s, hs⟩ := h
  exact ⟨s, [], by simpa using hs⟩

theorem inf_trans {a b c : Str} (h1 : a <:+: b) (h2 : b <:+: c) : a <:+: c := by
  obtain ⟨s, t, rfl⟩ := h1
  obtain ⟨u, v, rfl⟩ := h2
  exact ⟨u ++ s, t ++ v, by simp⟩

theorem wsplitAux_append (b : Str) {c : Char} (hc : c.isWhitespace) :
    ∀ (a acc : Str), wsplitAux (a ++ c :: b) acc = wsplitAux a acc ++ wsplitAux b [] := by
  intro a
  induction a with
  | nil =>
    intro acc
    by_cases h : acc = [] <;> simp [wsplitAux, hc, h]
  | cons x xs ih =>
    intro acc
    by_cases hx : x.isWhitespace <;> by_cases h : acc = [] <;>
      simp [wsplitAux, hx, h, ih]

theorem wsplit_append {c : Char} (hc : c.isWhitespace) (a b : Str) :
    wsplit (a ++ c :: b) = wsplit a ++ wsplit b :=
  wsplitAux_append b hc a []

theorem wsplitAux_mem : ∀ (l acc w : Str), (∀ ch ∈ acc, ch.isWhitespace = false) →
    w ∈ wsplitAux l acc →
      w ≠ [] ∧ (∀ ch ∈ w, ch.isWhitespace = false) ∧ w <:+: acc.reverse ++ l := by
  intro l
  induction l with
  | nil =>
    intro acc w hacc hw
    by_cases h : acc = []
    · simp [wsplitAux, h] at hw
    · simp [wsplitAux, h] at hw
      subst hw
      refine ⟨by simpa using h, fun ch hch => hacc ch (by simpa using hch), ?_⟩
      exact ⟨[], [], by simp⟩
  | cons x xs ih =>
    intro acc w hacc hw
    by_cases hx : x.isWhitespace
    · have hxs : xs <:+ acc.reverse ++ x :: xs := ⟨acc.reverse ++ [x], by simp⟩
      by_cases h : acc = []
      · simp [wsplitAux, hx, h] at hw
        obtain ⟨h1, h2, h3⟩ := ih [] w (by simp) hw
        exact ⟨h1, h2, inf_trans (by simpa using h3) (suff_inf hxs)⟩
      · simp [wsplitAux, hx, h] at hw
        rcases hw with hw | hw
        · subst hw
          refine ⟨by simpa using h, fun ch hch => hacc ch (by simpa using hch), ?_⟩
          exact pref_inf ⟨x :: xs, rfl⟩
        · obtain ⟨h1, h2, h3⟩ := ih [] w (by simp) hw
          exact ⟨h1, h2, inf_trans (by simpa using h3) (suff_inf hxs)⟩
    · simp [wsplitAux, hx] at hw
      have hacc' : ∀ ch ∈ x :: acc, ch.isWhitespace = false := by
        intro ch hch
        rcases List.mem_cons.mp hch with rfl | hch
        · exact Bool.not_eq_true _ ▸ eq_false_of_ne_true hx
        · exact hacc ch hch
      obtain ⟨h1, h2, h3⟩ := ih (x :: acc) w hacc' hw
      refine ⟨h1, h2, ?_⟩
      simpa [List.append_assoc] using h3

theorem wsplit_mem {s w : Str} (hw : w ∈ wsplit s) :
    w ≠ [] ∧ (∀ ch ∈ w, ch.isWhitespace = false) ∧ w <:+: s := by
  have h := wsplitAux_mem s [] w (by simp) hw
  simpa using h

theorem wordTokens_eq (r : Item) :
    wordTokens r =
      wsplit (lower r.code) ++ wsplit (lower r.name) ++ wsplit (lower r.spec) := by
  have hsp : Char.toLower ' ' = ' ' := by decide
  have hws : (' ' : Char).isWhitespace := by decide
  unfold wordTokens searchableText lower
  simp only [List.map_append, List.map_cons, hsp]
  rw [wsplit_append hws, wsplit_append hws]
  simp [wsplit, List.append_assoc]

theorem token_inf_field {r : Item} {w : Str} (hw : w ∈ wordTokens r) :
    w <:+: lower r.code ∨ w <:+: lower r.name ∨ w <:+: lower r.spec := by
  rw [wordTokens_eq] at hw
  rcases List.mem_append.mp hw with h | h
  · rcases List.mem_append.mp h with h' | h'
    · exact Or.inl (wsplit_mem h').2.2
    · exact Or.inr (Or.inl (wsplit_mem h').2.2)
  · exact Or.inr (Or.inr (wsplit_mem h).2.2)

/-! ## Index bucket lemmas -/

theorem mem_addUnique {l : List Item} {it r : Item} :
    r ∈ addUnique l it ↔ r ∈ l ∨ r = it := by
  unfold addUnique
  split
  · constructor
    · exact fun h => Or.inl h
    · rintro (h | rfl)
      · exact h
      · assumption
  · simp

theorem lookupIdx_add (idx : Index) (key : Str) (it : Item) (k : Str) :
    lookupIdx (addItemToKey idx key it) k =
      if k = key then some (addUnique ((lookupIdx idx key).getD []) it)
      else lookupIdx idx k := by
  induction idx with
  | nil =>
    by_cases hk : k = key
    · subst hk
      simp [addItemToKey, lookupIdx, addUnique]
    · have hk' : ¬key = k := fun h => hk h.symm
      simp [addItemToKey, lookupIdx, hk, hk']
  | cons e rest ih =>
    by_cases he : e.1 = key
    · by_cases hk : k = key
      · subst hk
        simp [addItemToKey, lookupIdx, he, ih]
      · have hk' : ¬key = k := fun h => hk h.symm
        simp [addItemToKey, lookupIdx, he, hk, hk', ih]
    · by_cases hk : k = key
      · subst hk
        simp [addItemToKey, lookupIdx, he, ih]
      · simp [addItemToKey, lookupIdx, he, hk, ih]

theorem memBucket_add_self (idx : Index) (key : Str) (it : Item) :
    memBucket (addItemToKey idx key it) key it := by
  refine ⟨addUnique ((lookupIdx idx key).getD []) it, ?_, ?_⟩
  · rw [lookupIdx_add]
    simp
  · exact mem_addUnique.mpr (Or.inr rfl)

theorem memBucket_add_mono {idx : Index} {k : Str} {r : Item} (key : Str) (it : Item)
    (h : memBucket idx k r) : memBucket (addItemToKey idx key it) k r := by
  obtain ⟨l, hl, hr⟩ := h
  by_cases hk : k = key
  · subst hk
    refine ⟨addUnique ((lookupIdx idx k).getD []) it, by rw [lookupIdx_add]; simp, ?_⟩
    rw [hl]
    exact mem_addUnique.mpr (Or.inl hr)
  · exact ⟨l, by rw [lookupIdx_add, if_neg hk]; exact hl, hr⟩

theorem memBucket_foldl_mono {β : Type} (g : β → Str) (it : Item) (ws : List β)
    {k : Str} {r : Item} : ∀ {idx : Index}, memBucket idx k r →
      memBucket (ws.foldl (fun a w => addItemToKey a (g w) it) idx) k r := by
  induction ws with
  | nil => exact fun h => h
  | cons w ws ih => exact fun h => ih (memBucket_add_mono (g w) it h)

theorem memBucket_foldl_self {β : Type} (g : β → Str) (it : Item) (ws : List β)
    {w : β} (hw : w ∈ ws) : ∀ (idx : Index),
      memBucket (ws.foldl (fun a w => addItemToKey a (g w) it) idx) (g w) it := by
  induction ws with
  | nil => cases hw
  | cons x ws ih =>
    intro idx
    rcases List.mem_cons.mp hw with rfl | hw'
    · exact memBucket_foldl_mono g it ws (memBucket_add_self idx (g w) it)
    · exact ih hw' _

theorem memBucket_indexWordsOf_mono {idx : Index} {k : Str} {r : Item} (it : Item)
    (h : memBucket idx k r) : memBucket (indexWordsOf idx it) k r :=
  memBucket_foldl_mono (fun w => w) it (wordTokens it) h

theorem memBucket_addPrefField_mono {idx : Index} {k : Str} {r : Item} (it : Item)
    (v : Str) (h : memBucket idx k r) : memBucket (addPrefField idx it v) k r :=
  memBucket_foldl_mono (fun p => prefTag ++ p) it (prefsOf (lower v)) h

theorem memBucket_addPrefIdx_mono {idx : Index} {k : Str} {r : Item} (it : Item)
    (h : memBucket idx k r) : memBucket (addPrefIdx idx it) k r :=
  memBucket_addPrefField_mono it it.spec
    (memBucket_addPrefField_mono it it.name (memBucket_addPrefField_mono it it.code h))

theorem memBucket_step_mono {idx : Index} {k : Str} {r : Item} (it : Item)
    (h : memBucket idx k r) : memBucket (addPrefIdx (indexWordsOf idx it) it) k r :=
  memBucket_addPrefIdx_mono it (memBucket_indexWordsOf_mono it h)

theorem memBucket_dataFoldl_mono (data : List Item) {k : Str} {r : Item} :
    ∀ {idx : Index}, memBucket idx k r →
      memBucket (data.foldl (fun a it => addPrefIdx (indexWordsOf a it) it) idx) k r := by
  induction data with
  | nil => exact fun h => h
  | cons it rest ih => exact fun h => ih (memBucket_step_mono it h)

theorem memBucket_indexWordsOf_self (idx : Index) (it : Item) {w : Str}
    (hw : w ∈ wordTokens it) : memBucket (indexWordsOf idx it) w it :=
  memBucket_foldl_self (fun w => w) it (wordTokens it) hw idx

theorem memBucket_addPrefField_self (idx : Index) (it : Item) (v : Str) {p : Str}
    (hp : p ∈ prefsOf (lower v)) : memBucket (addPrefField idx it v) (prefTag ++ p) it :=
  memBucket_foldl_self (fun p => prefTag ++ p) it (prefsOf (lower v)) hp idx

theorem memBucket_addPrefIdx_self (idx : Index) (it : Item) {v p : Str}
    (hv : v = it.code ∨ v = it.name ∨ v = it.spec) (hp : p ∈ prefsOf (lower v)) :
    memBucket (addPrefIdx idx it) (prefTag ++ p) it := by
  rcases hv with rfl | rfl | rfl
  · exact memBucket_addPrefField_mono it it.spec (memBucket_addPrefField_mono it it.name
      (memBucket_addPrefField_self idx it it.code hp))
  · exact memBucket_addPrefField_mono it it.spec
      (memBucket_addPrefField_self (addPrefField idx it it.code) it it.name hp)
  · exact memBucket_addPrefField_self
      (addPrefField (addPrefField idx it it.code) it it.name) it it.spec hp

theorem buildSearchIndex_contains_aux (data : List Item) :
    ∀ (idx : Index) (r : Item), r ∈ data →
      (∀ w ∈ wordTokens r,
        memBucket (data.foldl (fun a it => addPrefIdx (indexWordsOf a it) it) idx) w r) ∧
      (∀ v, (v = r.code ∨ v = r.name ∨ v = r.spec) → ∀ p ∈ prefsOf (lower v),
        memBucket (data.foldl (fun a it => addPrefIdx (indexWordsOf a it) it) idx)
          (prefTag ++ p) r) := by
  induction data with
  | nil =>
    intro _ r hr
    cases hr
  | cons it rest ih =>
    intro idx r hr
    rw [List.foldl_cons]
    rcases List.mem_cons.mp hr with rfl | hr'
    · constructor
      · intro w hw
        exact memBucket_dataFoldl_mono rest
          (memBucket_addPrefIdx_mono r (memBucket_indexWordsOf_self idx r hw))
      · intro v hv p hp
        exact memBucket_dataFoldl_mono rest
          (memBucket_addPrefIdx_self (indexWordsOf idx r) r hv hp)
    · exact ih _ r hr'

/-- Every record of the catalog is in the bucket of each of its word
tokens, and in the tagged bucket of each indexed prefix of each of its
three fields. -/
theorem buildSearchIndex_contains {data : List Item} {r : Item} (hr : r ∈ data) :
    (∀ w ∈ wordTokens r, memBucket (buildSearchIndex data) w r) ∧
    (∀ v, (v = r.code ∨ v = r.name ∨ v = r.spec) → ∀ p ∈ prefsOf (lower v),
      memBucket (buildSearchIndex data) (prefTag ++ p) r) :=
  buildSearchIndex_contains_aux data [] r hr

theorem prefsOf_spec {v p : Str} (hp : p ∈ prefsOf v) :
    p ≠ [] ∧ p.length ≤ 9 ∧ p <+: v := by
  unfold prefsOf at hp
  obtain ⟨i, hi, rfl⟩ := List.mem_map.mp hp
  have hi' := List.mem_range'_1.mp hi
  have hlen : (v.take i).length = i := by
    rw [List.length_take]
    omega
  refine ⟨?_, ?_, ⟨v.drop i, List.take_append_drop i v⟩⟩
  · intro h
    rw [h] at hlen
    simp at hlen
    omega
  · rw [List.length_take]
    omega

theorem take_mem_prefsOf {v : Str} {i : Nat} (h1 : 1 ≤ i) (h2 : i ≤ min v.length 9) :
    v.take i ∈ prefsOf v := by
  unfold prefsOf
  exact List.mem_map.mpr ⟨i, List.mem_range'_1.mpr ⟨h1, by omega⟩, rfl⟩

theorem lookup_inv_add {P : Str → Item → Prop} {idx : Index} (key : Str) (it : Item)
    (hidx : ∀ k l, lookupIdx idx k = some l → ∀ r ∈ l, P k r) (hit : P key it) :
    ∀ k l, lookupIdx (addItemToKey idx key it) k = some l → ∀ r ∈ l, P k r := by
  intro k l hl r hr
  rw [lookupIdx_add] at hl
  by_cases hk : k = key
  · subst hk
    rw [if_pos rfl] at hl
    injection hl with hl
    subst hl
    rcases mem_addUnique.mp hr with hr' | rfl
    · cases hbase : lookupIdx idx k with
      | none => rw [hbase] at hr'; simp at hr'
      | some l₀ =>
        rw [hbase] at hr'
        exact hidx k l₀ hbase r (by simpa using hr')
    · exact hit
  · rw [if_neg hk] at hl
    exact hidx k l hl r hr

theorem lookup_inv_foldl {β : Type} {P : Str → Item → Prop} (g : β → Str) (it : Item)
    (ws : List β) : ∀ {idx : Index},
    (∀ k l, lookupIdx idx k = some l → ∀ r ∈ l, P k r) →
    (∀ w ∈ ws, P (g w) it) →
    ∀ k l, lookupIdx (ws.foldl (fun a w => addItemToKey a (g w) it) idx) k = some l →
      ∀ r ∈ l, P k r := by
  induction ws with
  | nil =>
    intro idx h _
    exact h
  | cons x ws ih =>
    intro idx h hws
    exact ih (lookup_inv_add (g x) it h (hws x (List.mem_cons_self _ _)))
      (fun w hw => hws w (List.mem_cons_of_mem _ hw))

/-- Every record in any bucket of the built index belongs to the catalog
it was built from, and sits there for a legitimate reason (`goodKey`). -/
theorem buildSearchIndex_inv (data : List Item) :
    ∀ k l, lookupIdx (buildSearchIndex data) k = some l →
      ∀ r ∈ l, r ∈ data ∧ goodKey k r := by
  unfold buildSearchIndex
  suffices h : ∀ (d : List Item) (idx : Index), (∀ x ∈ d, x ∈ data) →
      (∀ k l, lookupIdx idx k = some l → ∀ r ∈ l, r ∈ data ∧ goodKey k r) →
      ∀ k l,
        lookupIdx (d.foldl (fun a it => addPrefIdx (indexWordsOf a it) it) idx) k = some l →
        ∀ r ∈ l, r ∈ data ∧ goodKey k r by
    refine h data [] (fun x hx => hx) ?_
    intro k l hl
    simp [lookupIdx] at hl
  intro d
  induction d with
  | nil =>
    intro idx _ h
    exact h
  | cons it rest ih =>
    intro idx hd h
    rw [List.foldl_cons]
    simp only [addPrefIdx, addPrefField, indexWordsOf]
    have hit : it ∈ data := hd it (List.mem_cons_self _ _)
    have hfield : ∀ (v : Str), (v = it.code ∨ v = it.name ∨ v = it.spec) →
        ∀ p ∈ prefsOf (lower v), it ∈ data ∧ goodKey (prefTag ++ p) it := by
      intro v hv p hp
      obtain ⟨hne, hlen, hpref⟩ := prefsOf_spec hp
      refine ⟨hit, Or.inr ⟨p, hne, hlen, rfl, ?_⟩⟩
      rcases hv with rfl | rfl | rfl
      · exact Or.inl hpref
      · exact Or.inr (Or.inl hpref)
      · exact Or.inr (Or.inr hpref)
    have h1 := lookup_inv_foldl (fun w => w) it (wordTokens it) h
      (fun w hw => ⟨hit, Or.inl hw⟩)
    have h2 := lookup_inv_foldl (fun p => prefTag ++ p) it (prefsOf (lower it.code)) h1
      (hfield it.code (Or.inl rfl))
    have h3 := lookup_inv_foldl (fun p => prefTag ++ p) it (prefsOf (lower it.name)) h2
      (hfield it.name (Or.inr (Or.inl rfl)))
    have h4 := lookup_inv_foldl (fun p => prefTag ++ p) it (prefsOf (lower it.spec)) h3
      (hfield it.spec (Or.inr (Or.inr rfl)))
    exact ih _ (fun x hx => hd x (List.mem_cons_of_mem _ hx)) h4

theorem nodup_addUnique {l : List Item} (it : Item) (h : l.Nodup) :
    (addUnique l it).Nodup := by
  unfold addUnique
  split
  · exact h
  · rename_i hni
    rw [← List.concat_eq_append]
    exact List.Nodup.concat hni h

theorem lookup_nodup_add {idx : Index} (key : Str) (it : Item)
    (h : ∀ k l, lookupIdx idx k = some l → l.Nodup) :
    ∀ k l, lookupIdx (addItemToKey idx key it) k = some l → l.Nodup := by
  intro k l hl
  rw [lookupIdx_add] at hl
  by_cases hk : k = key
  · rw [if_pos hk] at hl
    injection hl with hl
    subst hl
    apply nodup_addUnique
    cases hbase : lookupIdx idx key with
    | none => simp [hbase]
    | some l₀ => simpa [hbase] using h key l₀ hbase
  · rw [if_neg hk] at hl
    exact h k l hl

theorem lookup_nodup_foldl {β : Type} (g : β → Str) (it : Item) (ws : List β) :
    ∀ {idx : Index}, (∀ k l, lookupIdx idx k = some l → l.Nodup) →
      ∀ k l, lookupIdx (ws.foldl (fun a w => addItemToKey a (g w) it) idx) k = some l →
        l.Nodup := by
  induction ws with
  | nil => exact fun h => h
  | cons x ws ih => exact fun h => ih (lookup_nodup_add (g x) it h)

/-- Every bucket of the built index is duplicate-free. -/
theorem buildSearchIndex_nodup (data : List Item) :
    ∀ k l, lookupIdx (buildSearchIndex data) k = some l → l.Nodup := by
  unfold buildSearchIndex
  suffices h : ∀ (d : List Item) (idx : Index),
      (∀ k l, lookupIdx idx k = some l → l.Nodup) →
      ∀ k l,
        lookupIdx (d.foldl (fun a it => addPrefIdx (indexWordsOf a it) it) idx) k = some l →
        l.Nodup by
    refine h data [] ?_
    intro k l hl
    simp [lookupIdx] at hl
  intro d
  induction d with
  | nil => exact fun idx h => h
  | cons it rest ih =>
    intro idx h
    rw [List.foldl_cons]
    simp only [addPrefIdx, addPrefField, indexWordsOf]
    exact ih _ (lookup_nodup_foldl _ it _ (lookup_nodup_foldl _ it _
      (lookup_nodup_foldl _ it _ (lookup_nodup_foldl _ it _ h))))

/-! ## Index search versus linear scan -/

theorem mem_linearScan {data : List Item} {t : Str} {r : Item} (hd : r ∈ data)
    (h : t <:+: lower r.code ∨ t <:+: lower r.name ∨ t <:+: lower r.spec) :
    r ∈ linearScan data t := by
  unfold linearScan
  rw [List.mem_filter]
  refine ⟨hd, ?_⟩
  rcases h with h | h | h <;> simp [h]

/-- C1 (amended): for a non-empty normalized term that does not itself
start with the literal tag `"_prefix_"`, every record returned by the
index paths of `_search_with_index` is also found by the linear-scan
substring fallback — the index result is a subset, as a set, of the
scan result.  (Equality fails in general; see the counterexample.) -/
theorem search_subset_scan (data : List Item) (term : Str)
    (hne : stripStr (lower term) ≠ [])
    (htag : ¬ prefTag <+: stripStr (lower term)) :
    ∀ r ∈ searchWithIndex (buildSearchIndex data) data term,
      r ∈ linearScan data (stripStr (lower term)) := by
  intro r hr
  simp only [searchWithIndex] at hr
  rw [if_neg hne] at hr
  have hsub : stripStr (lower term) <:+: prefTag ++ stripStr (lower term) :=
    suff_inf ⟨prefTag, rfl⟩
  cases hpk : lookupIdx (buildSearchIndex data) (prefTag ++ stripStr (lower term)) with
  | some l =>
    rw [hpk] at hr
    obtain ⟨hrdata, hgood⟩ := buildSearchIndex_inv data _ l hpk r hr
    rcases hgood with htok | ⟨p, _, _, hkey, hfp⟩
    · rcases token_inf_field htok with h | h | h
      · exact mem_linearScan hrdata (Or.inl (inf_trans hsub h))
      · exact mem_linearScan hrdata (Or.inr (Or.inl (inf_trans hsub h)))
      · exact mem_linearScan hrdata (Or.inr (Or.inr (inf_trans hsub h)))
    · have hp : stripStr (lower term) = p := List.append_cancel_left hkey
      rcases hfp with h | h | h
      · exact mem_linearScan hrdata (Or.inl (hp ▸ pref_inf h))
      · exact mem_linearScan hrdata (Or.inr (Or.inl (hp ▸ pref_inf h)))
      · exact mem_linearScan hrdata (Or.inr (Or.inr (hp ▸ pref_inf h)))
  | none =>
    rw [hpk] at hr
    cases hwk : lookupIdx (buildSearchIndex data) (stripStr (lower term)) with
    | some l =>
      rw [hwk] at hr
      obtain ⟨hrdata, hgood⟩ := buildSearchIndex_inv data _ l hwk r hr
      rcases hgood with htok | ⟨p, _, _, hkey, _⟩
      · rcases token_inf_field htok with h | h | h
        · exact mem_linearScan hrdata (Or.inl h)
        · exact mem_linearScan hrdata (Or.inr (Or.inl h))
        · exact mem_linearScan hrdata (Or.inr (Or.inr h))
      · exact absurd (hkey ▸ ⟨p, rfl⟩) htag
    | none =>
      rw [hwk] at hr
      exact hr

/-- A record whose code starts with `ab`. -/
def witItem : Item := ⟨1, "ab".data, [], [], [], []⟩

/-- Witness for `search_subset_scan` on a one-record catalog. -/
theorem search_subset_scan_witness :
    witItem ∈ linearScan [witItem] (stripStr (lower "ab".data)) :=
  search_subset_scan [witItem] ("ab".data) (by decide) (by decide) witItem (by decide)

/-- A record containing `ab` only in the middle of its code. -/
def itemXAB : Item := ⟨2, "xab".data, [], [], [], []⟩

/-- The two-record catalog on which index search and linear scan
disagree. -/
def catC1 : List Item := [witItem, itemXAB]

/-- C1 counterexample: on catalog `[⟨code "ab"⟩, ⟨code "xab"⟩]` and
query `"ab"`, the prefix bucket exists and holds only the first record,
while the linear scan also finds the second (`"ab"` is an inner
substring of `"xab"`): the two results are not equal as sets. -/
theorem search_vs_scan_cex :
    itemXAB ∈ linearScan catC1 (stripStr (lower "ab".data)) ∧
    itemXAB ∉ searchWithIndex (buildSearchIndex catC1) catC1 ("ab".data) := by
  decide

/-! ## Prefix-index structure (C5) and index invariants (C9) -/

/-- C5 (amended): every record is in the tagged bucket of each prefix of
length `1 … min(len, 9)` of each of its three lowercased fields; and
provided no record has a word token that itself starts with the literal
tag `"_prefix_"`, every record in a tagged bucket `"_prefix_" ++ p`
really has `p` as a prefix of one of its fields (no collision between
the two key namespaces); tagged buckets are duplicate-free. -/
theorem pref_index_spec (data : List Item) (r : Item) (hr : r ∈ data)
    (hclean : ∀ s ∈ data, ∀ w ∈ wordTokens s, ¬ prefTag <+: w) :
    (∀ v, (v = r.code ∨ v = r.name ∨ v = r.spec) → ∀ i, 1 ≤ i →
      i ≤ min (lower v).length 9 →
      memBucket (buildSearchIndex data) (prefTag ++ (lower v).take i) r) ∧
    (∀ p l, lookupIdx (buildSearchIndex data) (prefTag ++ p) = some l →
      (∀ s ∈ l, fieldPref p s) ∧ l.Nodup) := by
  constructor
  · intro v hv i h1 h2
    exact (buildSearchIndex_contains hr).2 v hv _ (take_mem_prefsOf h1 h2)
  · intro p l hl
    refine ⟨?_, buildSearchIndex_nodup data _ l hl⟩
    intro s hs
    obtain ⟨hsdata, hgood⟩ := buildSearchIndex_inv data _ l hl s hs
    rcases hgood with htok | ⟨q, _, _, hkey, hfp⟩
    · exact absurd ⟨p, rfl⟩ (hclean s hsdata _ htok)
    · rw [List.append_cancel_left hkey]
      exact hfp

/-- Witness for `pref_index_spec`: the length-2 prefix of the code
`"ab"` reaches its record. -/
theorem pref_index_spec_witness :
    memBucket (buildSearchIndex [witItem]) (prefTag ++ (lower witItem.code).take 2)
      witItem :=
  (pref_index_spec [witItem] witItem (by decide) (by decide)).1 witItem.code
    (Or.inl rfl) 2 (by decide) (by decide)

/-- A record whose code is literally the tagged string `"_prefix_ab"`. -/
def itemTagged : Item := ⟨2, "_prefix_ab".data, [], [], [], []⟩

/-- The catalog on which the prefix-key namespace collides with a word
token. -/
def catC5 : List Item := [witItem, itemTagged]

/-- C5 counterexample: a record whose code is the literal string
`"_prefix_ab"` lands, via its word token, in the very bucket keyed by
the tagged prefix `"ab"` of another record — the prefix-tagged keys are
not a namespace disjoint from the whole-word keys. -/
theorem pref_bucket_collision_cex :
    itemTagged ∈ (lookupIdx (buildSearchIndex catC5) (prefTag ++ "ab".data)).getD [] ∧
    ¬ fieldPref ("ab".data) itemTagged := by
  decide

/-- C9 (amended): after a build over catalog `R`, every record of `R`
is in the bucket of each of its word tokens (hence reachable via at
least one whenever it has any; a record whose fields yield no token is
unreachable), no record outside `R` appears in any bucket, and every
bucket is duplicate-free. -/
theorem index_inv_amended (data : List Item) :
    (∀ r ∈ data, ∀ w ∈ wordTokens r, memBucket (buildSearchIndex data) w r) ∧
    (∀ k l, lookupIdx (buildSearchIndex data) k = some l → ∀ s ∈ l, s ∈ data) ∧
    (∀ k l, lookupIdx (buildSearchIndex data) k = some l → l.Nodup) :=
  ⟨fun _ hr w hw => (buildSearchIndex_contains hr).1 w hw,
    fun k l hl s hs => (buildSearchIndex_inv data k l hl s hs).1,
    buildSearchIndex_nodup data⟩

/-- Witness for `index_inv_amended`: the token `"ab"` reaches its
record. -/
theorem index_inv_amended_witness :
    memBucket (buildSearchIndex [witItem]) ("ab".data) witItem :=
  (index_inv_amended [witItem]).1 witItem (by decide) ("ab".data) (by decide)

/-- A record all of whose searchable fields are empty. -/
def emptyRec : Item := ⟨1, [], [], [], [], []⟩

/-- C9 counterexample: a record with empty `code`, `name` and `spec`
has no word tokens, and the index built over the one-record catalog is
empty, so the record is reachable through no bucket at all. -/
theorem index_reach_cex :
    emptyRec ∈ [emptyRec] ∧ wordTokens emptyRec = [] ∧
    buildSearchIndex [emptyRec] = [] := by
  decide

/-! ## CSV row numbering (C2) -/

theorem rowToItem_id {i : Nat} {row : List Str} {x : Item}
    (h : rowToItem i row = some x) : x.id = i := by
  simp only [rowToItem] at h
  split at h
  · exact absurd h (by simp)
  · split at h
    · exact absurd h (by simp)
    · injection h with h
      subst h
      rfl

theorem parseRowsFrom_pos : ∀ (rows : List (List Str)) (n : Nat) (it : Item),
    it ∈ parseRowsFrom n rows →
      n ≤ it.id ∧ it.id < n + rows.length ∧
      rowToItem it.id (rows.getD (it.id - n) []) = some it := by
  intro rows
  induction rows with
  | nil =>
    intro n it h
    simp [parseRowsFrom] at h
  | cons row rest ih =>
    intro n it h
    unfold parseRowsFrom at h
    cases hx : rowToItem n row with
    | some x =>
      rw [hx] at h
      rcases List.mem_cons.mp h with rfl | h'
      · have hid : it.id = n := rowToItem_id hx
        refine ⟨by omega, by simp; omega, ?_⟩
        rw [hid, Nat.sub_self]
        simpa using hx
      · obtain ⟨h1, h2, h3⟩ := ih (n + 1) it h'
        refine ⟨by omega, by simp; omega, ?_⟩
        have hsub : it.id - n = (it.id - (n + 1)) + 1 := by omega
        rw [hsub, List.getD_cons_succ]
        exact h3
    | none =>
      rw [hx] at h
      obtain ⟨h1, h2, h3⟩ := ih (n + 1) it h
      refine ⟨by omega, by simp; omega, ?_⟩
      have hsub : it.id - n = (it.id - (n + 1)) + 1 := by omega
      rw [hsub, List.getD_cons_succ]
      exact h3

/-- C2 (amended): each record surviving the import filters receives as
`id` its 1-based position among **all** post-header rows — the
`enumerate` counter, which also advances over skipped rows — not a count
of surviving rows only. -/
theorem csv_id_row_position (rows : List (List Str)) (it : Item)
    (h : it ∈ parseRowsFrom 1 rows) :
    1 ≤ it.id ∧ it.id ≤ rows.length ∧
      rowToItem it.id (rows.getD (it.id - 1) []) = some it := by
  obtain ⟨h1, h2, h3⟩ := parseRowsFrom_pos rows 1 it h
  exact ⟨h1, by omega, h3⟩

/-- The single data row of the witness import. -/
def exRows : List (List Str) :=
  [["0001".data, "x".data, "Cat".data, "Widget".data, "Small".data]]

/-- The record produced from `exRows`. -/
def exItem : Item := ⟨1, "0001".data, "Cat".data, "Widget".data, "Small".data, []⟩

/-- Witness for `csv_id_row_position` on a one-row import. -/
theorem csv_id_row_position_witness :
    1 ≤ exItem.id ∧ exItem.id ≤ exRows.length ∧
      rowToItem exItem.id (exRows.getD (exItem.id - 1) []) = some exItem :=
  csv_id_row_position exRows exItem (by decide)

/-- The pasted text of the claim's example: a header line, a filtered
`ZZ01` row, and a surviving `0001` row. -/
def csvInput : Str := "h\nZZ01,x,Cat,Name,Spec\n0001,x,Cat,Widget,Small".data

/-- C2 counterexample: on the claim's example input the surviving row
gets `id = 2` (its `enumerate` position among the post-header rows),
not `id = 1` as the claim states. -/
theorem csv_id_cex :
    processCsvText csvInput =
      [⟨2, "0001".data, "Cat".data, "Widget".data, "Small".data, []⟩] ∧
    (⟨1, "0001".data, "Cat".data, "Widget".data, "Small".data, []⟩ : Item) ∉
      processCsvText csvInput := by
  decide
